import Mathlib

/-!
Verification of the Merkel order-book core: shallow embedding of
`OrderBookEntry.cpp`, `CSVReader.cpp` and `OrderBook.cpp` with proofs of the
spec's claims about parsing, loading, indexing, best prices, statistics and
time navigation.  Doubles are modelled as rationals; C++ `std::string`
comparison is Lean's lexicographic `String` order; `std::set<std::string>` is
a sorted duplicate-free list built by ordered insertion.
-/

namespace Merkel

/-! ### The C++ string comparator

`std::string::operator<` is lexicographic comparison of the character
sequences.  We embed it as an executable Boolean `strLt` on `String.data`
(comparing scalar values), and prove it a strict total order equivalent to
Lean's `String` order. -/

/-- Lexicographic strict comparison of character lists by scalar value,
the semantics of `std::string::operator<`. -/
def lexLt : List Char → List Char → Bool
| [], [] => false
| [], _ :: _ => true
| _ :: _, [] => false
| c :: cs, d :: ds =>
  if c.toNat < d.toNat then true
  else if d.toNat < c.toNat then false
  else lexLt cs ds

/-- `std::string` comparison: lexicographic on the character data. -/
def strLt (s t : String) : Bool := lexLt s.data t.data

theorem lexLt_nil_cons (d : Char) (ds : List Char) : lexLt [] (d :: ds) = true := rfl

theorem lexLt_nil_right (l : List Char) : lexLt l [] = false := by
  cases l <;> rfl

theorem lexLt_cons_cons (c d : Char) (cs ds : List Char) :
    lexLt (c :: cs) (d :: ds) =
      if c.toNat < d.toNat then true
      else if d.toNat < c.toNat then false
      else lexLt cs ds := rfl

theorem char_eq_of_toNat_eq {c d : Char} (h : c.toNat = d.toNat) : c = d :=
  Char.eq_of_val_eq (UInt32.toNat.inj h)

theorem lexLt_irrefl (l : List Char) : lexLt l l = false := by
  induction l with
  | nil => rfl
  | cons c cs ih =>
    rw [lexLt_cons_cons, if_neg (Nat.lt_irrefl c.toNat), if_neg (Nat.lt_irrefl c.toNat)]
    exact ih

theorem lexLt_trans {a b c : List Char}
    (hab : lexLt a b = true) (hbc : lexLt b c = true) : lexLt a c = true := by
  induction a generalizing b c with
  | nil =>
    cases c with
    | nil =>
      cases b with
      | nil => exact hab
      | cons y ys => rw [lexLt_nil_right] at hbc; exact Bool.noConfusion hbc
    | cons z zs => rfl
  | cons x xs ih =>
    cases b with
    | nil => rw [lexLt_nil_right] at hab; exact Bool.noConfusion hab
    | cons y ys =>
      cases c with
      | nil => rw [lexLt_nil_right] at hbc; exact Bool.noConfusion hbc
      | cons z zs =>
        rw [lexLt_cons_cons] at hab hbc ⊢
        rcases Nat.lt_trichotomy x.toNat y.toNat with hxy | hxy | hxy
        · rcases Nat.lt_trichotomy y.toNat z.toNat with hyz | hyz | hyz
          · rw [if_pos (Nat.lt_trans hxy hyz)]
          · rw [if_pos (by omega : x.toNat < z.toNat)]
          · rw [if_neg (Nat.lt_asymm hyz), if_pos hyz] at hbc
            exact Bool.noConfusion hbc
        · rcases Nat.lt_trichotomy y.toNat z.toNat with hyz | hyz | hyz
          · rw [if_pos (by omega : x.toNat < z.toNat)]
          · rw [if_neg (by omega : ¬ x.toNat < z.toNat), if_neg (by omega : ¬ z.toNat < x.toNat)]
            rw [if_neg (by omega : ¬ x.toNat < y.toNat), if_neg (by omega : ¬ y.toNat < x.toNat)] at hab
            rw [if_neg (by omega : ¬ y.toNat < z.toNat), if_neg (by omega : ¬ z.toNat < y.toNat)] at hbc
            exact ih hab hbc
          · rw [if_neg (Nat.lt_asymm hyz), if_pos hyz] at hbc
            exact Bool.noConfusion hbc
        · rw [if_neg (Nat.lt_asymm hxy), if_pos hxy] at hab
          exact Bool.noConfusion hab

theorem lexLt_eq_of_not (a b : List Char)
    (hab : lexLt a b = false) (hba : lexLt b a = false) : a = b := by
  induction a generalizing b with
  | nil =>
    cases b with
    | nil => rfl
    | cons y ys => exact Bool.noConfusion (hab : lexLt [] (y :: ys) = false)
  | cons x xs ih =>
    cases b with
    | nil => exact Bool.noConfusion (hba : lexLt [] (x :: xs) = false)
    | cons y ys =>
      rw [lexLt_cons_cons] at hab hba
      rcases Nat.lt_trichotomy x.toNat y.toNat with hxy | hxy | hxy
      · rw [if_pos hxy] at hab
        exact Bool.noConfusion hab
      · rw [if_neg (by omega : ¬ x.toNat < y.toNat), if_neg (by omega : ¬ y.toNat < x.toNat)] at hab
        rw [if_neg (by omega : ¬ y.toNat < x.toNat), if_neg (by omega : ¬ x.toNat < y.toNat)] at hba
        rw [char_eq_of_toNat_eq hxy, ih ys hab hba]
      · rw [if_pos hxy] at hba
        exact Bool.noConfusion hba

theorem strLt_irrefl (s : String) : strLt s s = false := lexLt_irrefl s.data

theorem strLt_trans {a b c : String}
    (hab : strLt a b = true) (hbc : strLt b c = true) : strLt a c = true :=
  lexLt_trans hab hbc

theorem strLt_eq_of_not {a b : String}
    (hab : strLt a b = false) (hba : strLt b a = false) : a = b :=
  String.ext (lexLt_eq_of_not a.data b.data hab hba)

theorem strLt_asymm {a b : String} (hab : strLt a b = true) : strLt b a = false := by
  by_contra h
  have hba : strLt b a = true := by
    cases hv : strLt b a with
    | false => exact absurd hv h
    | true => rfl
  have := lexLt_trans hab hba
  rw [lexLt_irrefl] at this
  exact Bool.noConfusion this

theorem strLt_trichotomy (a b : String) :
    strLt a b = true ∨ a = b ∨ strLt b a = true := by
  cases hab : strLt a b with
  | true => exact Or.inl rfl
  | false =>
    cases hba : strLt b a with
    | true => exact Or.inr (Or.inr rfl)
    | false => exact Or.inr (Or.inl (strLt_eq_of_not hab hba))

theorem strLt_ne {a b : String} (h : strLt a b = true) : a ≠ b := by
  intro he
  rw [he, strLt_irrefl] at h
  exact Bool.noConfusion h

/-- No string is lexicographically below the empty string. -/
theorem strLt_empty_false (s : String) : strLt s "" = false := by
  unfold strLt
  have : ("" : String).data = [] := rfl
  rw [this]
  cases s.data <;> rfl

/-- Bridge: the embedded comparator agrees with Lean's lexicographic order
on `String` (hence with the spec's notion of lexicographic order). -/
theorem strLt_iff_lt {s t : String} : strLt s t = true ↔ s < t := by
  rw [String.lt_iff_toList_lt]
  show lexLt s.data t.data = true ↔ s.toList < t.toList
  have h : ∀ a b : List Char, lexLt a b = true ↔ a < b := by
    intro a
    induction a with
    | nil =>
      intro b
      cases b with
      | nil =>
        constructor
        · intro hx; exact Bool.noConfusion hx
        · intro hx; cases hx
      | cons y ys =>
        constructor
        · intro _; exact List.Lex.nil
        · intro _; rfl
    | cons x xs ih =>
      intro b
      cases b with
      | nil =>
        constructor
        · intro hx; rw [lexLt_nil_right] at hx; exact Bool.noConfusion hx
        · intro hx; cases hx
      | cons y ys =>
        rw [lexLt_cons_cons]
        constructor
        · intro h
          rcases Nat.lt_trichotomy x.toNat y.toNat with hxy | hxy | hxy
          · exact List.Lex.rel (Char.lt_def.mpr hxy)
          · rw [if_neg (by omega : ¬ x.toNat < y.toNat),
                if_neg (by omega : ¬ y.toNat < x.toNat)] at h
            rw [char_eq_of_toNat_eq hxy]
            exact List.Lex.cons ((ih ys).mp h)
          · rw [if_neg (Nat.lt_asymm hxy), if_pos hxy] at h
            exact Bool.noConfusion h
        · intro h
          cases h with
          | cons htl =>
            rw [if_neg (Nat.lt_irrefl x.toNat), if_neg (Nat.lt_irrefl x.toNat)]
            exact (ih ys).mpr htl
          | rel hr =>
            rw [if_pos (show x.toNat < y.toNat from Char.lt_def.mp hr)]
  exact h s.data t.data

/-- The two sides of an order (`OrderBookType` in `OrderBookEntry.h`). -/
inductive OrderBookType : Type
| bid
| ask
deriving DecidableEq, Repr

/-- One CSV record (`OrderBookEntry` in `OrderBookEntry.h`): price, amount,
timestamp, product, side. -/
structure OrderBookEntry : Type where
  price : ℚ
  amount : ℚ
  timestamp : String
  product : String
  orderType : OrderBookType
deriving DecidableEq, Repr

/-! ### Statistics layer (`OrderBookEntry.cpp`) -/

/-- `computeAveragePrice`: 0 on empty, else the fold of `sum += e.price`
divided by the length. -/
def computeAveragePrice (entries : List OrderBookEntry) : ℚ :=
  match entries with
  | [] => 0
  | _ :: _ =>
    (entries.foldl (fun sum e => sum + e.price) 0) / (entries.length : ℚ)

/-- `computeLowPrice`: 0 on empty, else fold `if e.price < low then low := e.price`
starting from the first entry's price. -/
def computeLowPrice (entries : List OrderBookEntry) : ℚ :=
  match entries with
  | [] => 0
  | e0 :: _ =>
    entries.foldl (fun low e => if e.price < low then e.price else low) e0.price

/-- `computeHighPrice`: 0 on empty, else fold `if e.price > high then high := e.price`
starting from the first entry's price. -/
def computeHighPrice (entries : List OrderBookEntry) : ℚ :=
  match entries with
  | [] => 0
  | e0 :: _ =>
    entries.foldl (fun high e => if high < e.price then e.price else high) e0.price

/-- `computePriceSpread`: high minus low. -/
def computePriceSpread (entries : List OrderBookEntry) : ℚ :=
  computeHighPrice entries - computeLowPrice entries

/-- `computePriceChange`: 0 when `previous` is empty, else mean(current) - mean(previous). -/
def computePriceChange (current previous : List OrderBookEntry) : ℚ :=
  match previous with
  | [] => 0
  | _ :: _ => computeAveragePrice current - computeAveragePrice previous

/-- `computePercentChange`: 0 when `previous` is empty or its mean is 0, else
`(meanCurr - meanPrev) / meanPrev * 100`. -/
def computePercentChange (current previous : List OrderBookEntry) : ℚ :=
  match previous with
  | [] => 0
  | _ :: _ =>
    let meanPrev := computeAveragePrice previous
    if meanPrev = 0 then 0
    else (computeAveragePrice current - meanPrev) / meanPrev * 100

/-- The arithmetic mean of the price field, as the spec words it
("arithmetic mean of `price` across the slice"); `[]` yields `0` since
division by zero is zero in `ℚ`. -/
def specMeanPrice (entries : List OrderBookEntry) : ℚ :=
  (entries.map (fun e => e.price)).sum / (entries.length : ℚ)

/-! ### Time helpers (`OrderBookEntry.cpp`)

`getNextTime`/`getPreviousTime` collect the distinct timestamps into a
`std::set<std::string>` — modelled as a sorted duplicate-free list built by
ordered insertion — then take `upper_bound` (first element greater) resp. the
element before `lower_bound` (last element smaller). -/

/-- Ordered duplicate-free insertion: `std::set<std::string>::insert`. -/
def setInsert (s : String) : List String → List String
| [] => [s]
| x :: xs =>
  if strLt s x then s :: x :: xs
  else if s = x then x :: xs
  else x :: setInsert s xs

/-- The sorted set of distinct timestamps of `entries`
(the `std::set<std::string> timestamps` loop). -/
def timestampsOf (entries : List OrderBookEntry) : List String :=
  entries.foldl (fun acc e => setInsert e.timestamp acc) []

/-- `getNextTime`: `upper_bound(currentTime)` on the timestamp set — the first
element strictly greater — or `""` when there is none. -/
def getNextTime (currentTime : String) (entries : List OrderBookEntry) : String :=
  match (timestampsOf entries).find? (fun t => strLt currentTime t) with
  | some t => t
  | none => ""

/-- `getPreviousTime`: the element just before `lower_bound(currentTime)` on
the timestamp set — the last element strictly smaller — or `""` when
`lower_bound` is `begin()`. -/
def getPreviousTime (currentTime : String) (entries : List OrderBookEntry) : String :=
  match ((timestampsOf entries).takeWhile (fun t => strLt t currentTime)).getLast? with
  | some t => t
  | none => ""

/-! ### CSV reading (`CSVReader.cpp`) -/

/-- The two exception kinds `stringsToOBE` can raise: `std::invalid_argument`
(no conversion possible, or fewer than 5 columns) and `std::out_of_range`
(converted value outside the representable range). -/
inductive StodError : Type
| invalidArgument
| outOfRange
deriving DecidableEq, Repr

/-- Decimal digits to a natural number. -/
def digitsToNat (ds : List Char) : ℕ :=
  ds.foldl (fun acc c => 10 * acc + (c.toNat - 48)) 0

/-- `DBL_MAX`, the largest finite double, as a rational. -/
def dblMax : ℚ := ((2 ^ 1024 - 2 ^ 971 : ℕ) : ℚ)

/-- `std::stod`: skip leading whitespace, optional sign, decimal mantissa
(at least one digit), optional exponent (ignored when it has no digits, as
`strtod` backs off), trailing characters ignored.  Raises `invalidArgument`
when no conversion can be performed and `outOfRange` when the magnitude
exceeds `DBL_MAX`.  (Hexadecimal/infinity/NaN forms and underflow are not
modelled; the repository's data never uses them.) -/
def stod (s : String) : Except StodError ℚ :=
  let cs := s.data.dropWhile (fun c => c.isWhitespace)
  let sc : Bool × List Char :=
    match cs with
    | '-' :: r => (true, r)
    | '+' :: r => (false, r)
    | _ => (false, cs)
  let intDs := sc.2.takeWhile (fun c => c.isDigit)
  let cs1 := sc.2.dropWhile (fun c => c.isDigit)
  let fr : List Char × List Char :=
    match cs1 with
    | '.' :: r => (r.takeWhile (fun c => c.isDigit), r.dropWhile (fun c => c.isDigit))
    | _ => ([], cs1)
  if intDs = [] ∧ fr.1 = [] then .error .invalidArgument
  else
    let mant : ℚ :=
      (digitsToNat intDs : ℚ) + (digitsToNat fr.1 : ℚ) / ((10 ^ fr.1.length : ℕ) : ℚ)
    let scaled : ℚ :=
      match fr.2 with
      | e :: r =>
        if e = 'e' ∨ e = 'E' then
          let es : Bool × List Char :=
            match r with
            | '-' :: r2 => (true, r2)
            | '+' :: r2 => (false, r2)
            | _ => (false, r)
          let eds := es.2.takeWhile (fun c => c.isDigit)
          if eds = [] then mant
          else if es.1 then mant / ((10 ^ digitsToNat eds : ℕ) : ℚ)
          else mant * ((10 ^ digitsToNat eds : ℕ) : ℚ)
        else mant
      | [] => mant
  if dblMax < scaled then .error .outOfRange
  else .ok (if sc.1 then -scaled else scaled)

/-- Split a character list at every occurrence of the delimiter. -/
def splitList (d : Char) : List Char → List (List Char)
| [] => [[]]
| c :: cs =>
  match splitList d cs with
  | [] => [[]]
  | t :: ts => if c = d then [] :: t :: ts else (c :: t) :: ts

/-- `CSVReader::tokenize`: repeated `std::getline(ss, token, delimiter)`.
This is splitting on the delimiter, except that a final empty token (input
empty or ending in the delimiter) is not produced, because the last
`getline` hits end-of-stream. -/
def tokenize (csvLine : String) (delimiter : Char) : List String :=
  let parts := (splitList delimiter csvLine.data).map (fun l => String.mk l)
  match parts.getLast? with
  | some t => if t = "" then parts.dropLast else parts
  | none => parts

/-- `CSVReader::stringsToOBE`: `[timestamp, product, orderType, amount, price]`
tokens to a record; throws when fewer than 5 tokens or either `stod` fails;
the side is `bid` exactly when the third token is `"bid"`. -/
def stringsToOBE (tokens : List String) : Except StodError OrderBookEntry :=
  if tokens.length < 5 then .error .invalidArgument
  else
    match stod (tokens.getD 3 "") with
    | .error e => .error e
    | .ok amount =>
      match stod (tokens.getD 4 "") with
      | .error e => .error e
      | .ok price =>
        .ok { price := price, amount := amount,
              timestamp := tokens.getD 0 "",
              product := tokens.getD 1 "",
              orderType := if tokens.getD 2 "" = "bid" then .bid else .ask }

/-- The body of `readCSVInto`'s line loop: skip empty lines, tokenize, skip
lines with fewer than 5 tokens, parse, and on success append. -/
def readLine (acc : List OrderBookEntry) (line : String) : List OrderBookEntry :=
  if line = "" then acc
  else
    let tokens := tokenize line ','
    if tokens.length < 5 then acc
    else
      match stringsToOBE tokens with
      | .ok e => acc ++ [e]
      | .error _ => acc

/-- `CSVReader::readCSVInto(path, out)`.  The file system is modelled by an
`Option (List String)`: `none` when the file cannot be opened (then the
function returns 0 leaving `out` untouched), `some lines` for its lines.
On success `out` is cleared and the loop appends each parsed record;
the return value is the final `out.size()`. -/
def readCSVInto (file : Option (List String)) (out : List OrderBookEntry) :
    List OrderBookEntry × ℤ :=
  match file with
  | none => (out, 0)
  | some lines =>
    let result := lines.foldl readLine []
    (result, (result.length : ℤ))

/-- `CSVReader::readCSV(filename)` (vector-returning overload). -/
def readCSV (file : Option (List String)) : List OrderBookEntry :=
  (readCSVInto file []).1

/-- `CSVReader::readCSV(filename, out)` (count-returning overload):
delegates to `readCSVInto`. -/
def readCSVOut (file : Option (List String)) (out : List OrderBookEntry) :
    List OrderBookEntry × ℤ :=
  readCSVInto file out

/-! ### The order book (`OrderBook.cpp`)

`std::map<std::pair<std::string, std::string>, std::vector<OrderBookEntry>>`
is modelled as an association list with keys kept in strictly increasing
lexicographic pair order (the `std::map` invariant). -/

/-- `std::map` key comparison: lexicographic order on (product, timestamp). -/
def keyLt (a b : String × String) : Bool :=
  strLt a.1 b.1 || (a.1 = b.1 && strLt a.2 b.2)

/-- `std::map::find`: the bucket stored under key `k`, if any. -/
def mapFind (m : List ((String × String) × List OrderBookEntry))
    (k : String × String) : Option (List OrderBookEntry) :=
  match m with
  | [] => none
  | (k1, v) :: rest => if k = k1 then some v else mapFind rest k

/-- `map[k].push_back(e)`: append `e` to the bucket of `k`, creating the
bucket (at its ordered position) when absent. -/
def mapPush (m : List ((String × String) × List OrderBookEntry))
    (k : String × String) (e : OrderBookEntry) :
    List ((String × String) × List OrderBookEntry) :=
  match m with
  | [] => [(k, [e])]
  | (k1, v) :: rest =>
    if keyLt k k1 then (k, [e]) :: (k1, v) :: rest
    else if k = k1 then (k1, v ++ [e]) :: rest
    else (k1, v) :: mapPush rest k e

/-- The store: `ordersByProductTime_`, grouped by (product, timestamp). -/
structure OrderBook : Type where
  ordersByProductTime : List ((String × String) × List OrderBookEntry)
deriving DecidableEq, Repr

/-- `OrderBook::load`: clear the map, read the CSV, and group each entry by
`(product, timestamp)` with `push_back` in file order. -/
def OrderBook.load (file : Option (List String)) : OrderBook :=
  ⟨(readCSV file).foldl (fun m e => mapPush m (e.product, e.timestamp) e) []⟩

/-- `OrderBook::insertOrder`: `ordersByProductTime_[{product, timestamp}].push_back(order)`. -/
def OrderBook.insertOrder (book : OrderBook) (order : OrderBookEntry) : OrderBook :=
  ⟨mapPush book.ordersByProductTime (order.product, order.timestamp) order⟩

/-- `OrderBook::getOrders`: look up the (product, timestamp) bucket and keep
the entries whose side matches; empty when the bucket does not exist. -/
def OrderBook.getOrders (book : OrderBook) (type : OrderBookType)
    (product timestamp : String) : List OrderBookEntry :=
  match mapFind book.ordersByProductTime (product, timestamp) with
  | none => []
  | some bucket => bucket.filter (fun e => e.orderType = type)

/-- `OrderBook::getBestBid`: fold `if (e.price > best) best = e.price`
over the bid slice, starting from the sentinel `0.0`. -/
def OrderBook.getBestBid (book : OrderBook) (product timestamp : String) : ℚ :=
  let bids := book.getOrders OrderBookType.bid product timestamp
  bids.foldl (fun best e => if best < e.price then e.price else best) 0

/-- `OrderBook::getBestAsk`: `0.0` on an empty ask slice, else fold
`if (e.price < best) best = e.price` starting from the first ask's price. -/
def OrderBook.getBestAsk (book : OrderBook) (product timestamp : String) : ℚ :=
  let asks := book.getOrders OrderBookType.ask product timestamp
  match asks with
  | [] => 0
  | a0 :: _ =>
    asks.foldl (fun best e => if e.price < best then e.price else best) a0.price

/-- `OrderBook::getKnownProducts`: insert every key's product component into a
`std::set<std::string>` and return its (sorted, distinct) elements. -/
def OrderBook.getKnownProducts (book : OrderBook) : List String :=
  book.ordersByProductTime.foldl (fun s kv => setInsert kv.1.1 s) []

/-- `OrderBook::getAllEntries`: concatenate every bucket, in key order. -/
def OrderBook.getAllEntries (book : OrderBook) : List OrderBookEntry :=
  book.ordersByProductTime.foldl (fun acc kv => acc ++ kv.2) []

/-- `OrderBook::getNextTime`: delegate to the free function over all entries. -/
def OrderBook.getNextTime (book : OrderBook) (currentTime : String) : String :=
  Merkel.getNextTime currentTime book.getAllEntries

/-- `OrderBook::getPreviousTime`: delegate to the free function over all entries. -/
def OrderBook.getPreviousTime (book : OrderBook) (currentTime : String) : String :=
  Merkel.getPreviousTime currentTime book.getAllEntries

/-! ### Lemmas on the statistics folds -/

theorem foldl_add_price (l : List OrderBookEntry) (a : ℚ) :
    l.foldl (fun sum e => sum + e.price) a = a + (l.map (fun e => e.price)).sum := by
  induction l generalizing a with
  | nil => simp
  | cons e t ih =>
    rw [List.foldl_cons, ih, List.map_cons, List.sum_cons]
    ring

theorem foldl_max_init_le (l : List OrderBookEntry) (a : ℚ) :
    a ≤ l.foldl (fun best e => if best < e.price then e.price else best) a := by
  induction l generalizing a with
  | nil => exact le_refl a
  | cons e t ih =>
    rw [List.foldl_cons]
    refine le_trans ?_ (ih _)
    by_cases h : a < e.price
    · rw [if_pos h]; exact le_of_lt h
    · rw [if_neg h]

theorem foldl_max_mem_le {x : OrderBookEntry} {l : List OrderBookEntry} (a : ℚ)
    (hx : x ∈ l) :
    x.price ≤ l.foldl (fun best e => if best < e.price then e.price else best) a := by
  induction l generalizing a with
  | nil => cases hx
  | cons e t ih =>
    rw [List.foldl_cons]
    rcases List.mem_cons.mp hx with he | ht
    · subst he
      refine le_trans ?_ (foldl_max_init_le t _)
      by_cases h : a < x.price
      · rw [if_pos h]
      · rw [if_neg h]; exact le_of_not_lt h
    · exact ih _ ht

theorem foldl_max_attained (l : List OrderBookEntry) (a : ℚ) :
    l.foldl (fun best e => if best < e.price then e.price else best) a = a ∨
      ∃ x ∈ l, l.foldl (fun best e => if best < e.price then e.price else best) a = x.price := by
  induction l generalizing a with
  | nil => exact Or.inl rfl
  | cons e t ih =>
    rw [List.foldl_cons]
    by_cases hc : a < e.price
    · rw [if_pos hc]
      rcases ih e.price with h | ⟨x, hx, hfx⟩
      · exact Or.inr ⟨e, List.mem_cons_self e t, h⟩
      · exact Or.inr ⟨x, List.mem_cons_of_mem e hx, hfx⟩
    · rw [if_neg hc]
      rcases ih a with h | ⟨x, hx, hfx⟩
      · exact Or.inl h
      · exact Or.inr ⟨x, List.mem_cons_of_mem e hx, hfx⟩

theorem foldl_min_init_le (l : List OrderBookEntry) (a : ℚ) :
    l.foldl (fun best e => if e.price < best then e.price else best) a ≤ a := by
  induction l generalizing a with
  | nil => exact le_refl a
  | cons e t ih =>
    rw [List.foldl_cons]
    refine le_trans (ih _) ?_
    by_cases h : e.price < a
    · rw [if_pos h]; exact le_of_lt h
    · rw [if_neg h]

theorem foldl_min_le_mem {x : OrderBookEntry} {l : List OrderBookEntry} (a : ℚ)
    (hx : x ∈ l) :
    l.foldl (fun best e => if e.price < best then e.price else best) a ≤ x.price := by
  induction l generalizing a with
  | nil => cases hx
  | cons e t ih =>
    rw [List.foldl_cons]
    rcases List.mem_cons.mp hx with he | ht
    · subst he
      refine le_trans (foldl_min_init_le t _) ?_
      by_cases h : x.price < a
      · rw [if_pos h]
      · rw [if_neg h]; exact le_of_not_lt h
    · exact ih _ ht

theorem foldl_min_attained (l : List OrderBookEntry) (a : ℚ) :
    l.foldl (fun best e => if e.price < best then e.price else best) a = a ∨
      ∃ x ∈ l, l.foldl (fun best e => if e.price < best then e.price else best) a = x.price := by
  induction l generalizing a with
  | nil => exact Or.inl rfl
  | cons e t ih =>
    rw [List.foldl_cons]
    by_cases hc : e.price < a
    · rw [if_pos hc]
      rcases ih e.price with h | ⟨x, hx, hfx⟩
      · exact Or.inr ⟨e, List.mem_cons_self e t, h⟩
      · exact Or.inr ⟨x, List.mem_cons_of_mem e hx, hfx⟩
    · rw [if_neg hc]
      rcases ih a with h | ⟨x, hx, hfx⟩
      · exact Or.inl h
      · exact Or.inr ⟨x, List.mem_cons_of_mem e hx, hfx⟩

theorem computeAveragePrice_eq_specMean (entries : List OrderBookEntry) :
    computeAveragePrice entries = specMeanPrice entries := by
  cases entries with
  | nil => simp [computeAveragePrice, specMeanPrice]
  | cons e t =>
    rw [computeAveragePrice, specMeanPrice, foldl_add_price]
    rw [zero_add]

/-- Demo records used to instantiate theorems at concrete inputs. -/
def demoBid : OrderBookEntry :=
  ⟨10, 1, "2020/01/01 00:00:00", "X/Y", OrderBookType.bid⟩

/-- A second demo record at a later timestamp, on the sell side. -/
def demoAsk : OrderBookEntry :=
  ⟨20, 2, "2020/01/01 00:00:05", "X/Y", OrderBookType.ask⟩

/-- **C9.** For every slice of records, `computeAveragePrice` equals the
arithmetic mean of the price field (0 on an empty slice);
`computeLowPrice`/`computeHighPrice` equal the minimum/maximum price and 0 on
an empty slice; and `computePriceSpread` equals the high minus the low, hence
0 on an empty slice. -/
theorem computeStats_spec (entries : List OrderBookEntry) :
    computeAveragePrice entries = specMeanPrice entries ∧
    (entries = [] →
      computeAveragePrice entries = 0 ∧ computeLowPrice entries = 0 ∧
      computeHighPrice entries = 0 ∧ computePriceSpread entries = 0) ∧
    (entries ≠ [] →
      (∀ e ∈ entries, computeLowPrice entries ≤ e.price) ∧
      (∃ e ∈ entries, e.price = computeLowPrice entries) ∧
      (∀ e ∈ entries, e.price ≤ computeHighPrice entries) ∧
      (∃ e ∈ entries, e.price = computeHighPrice entries)) ∧
    computePriceSpread entries = computeHighPrice entries - computeLowPrice entries := by
  refine ⟨computeAveragePrice_eq_specMean entries, ?_, ?_, rfl⟩
  · intro h
    subst h
    exact ⟨rfl, rfl, rfl, by simp [computePriceSpread, computeHighPrice, computeLowPrice]⟩
  · intro h
    obtain ⟨e0, t, rfl⟩ := List.exists_cons_of_ne_nil h
    refine ⟨?_, ?_, ?_, ?_⟩
    · intro e he
      exact foldl_min_le_mem e0.price he
    · rcases foldl_min_attained (e0 :: t) e0.price with hi | ⟨x, hx, hfx⟩
      · exact ⟨e0, List.mem_cons_self e0 t, hi.symm⟩
      · exact ⟨x, hx, hfx.symm⟩
    · intro e he
      exact foldl_max_mem_le e0.price he
    · rcases foldl_max_attained (e0 :: t) e0.price with hi | ⟨x, hx, hfx⟩
      · exact ⟨e0, List.mem_cons_self e0 t, hi.symm⟩
      · exact ⟨x, hx, hfx.symm⟩

/-- Witness for C9 at a concrete one-element slice. -/
theorem computeStats_spec_witness :
    ([demoBid] ≠ ([] : List OrderBookEntry)) ∧
    demoBid.price ≤ computeHighPrice [demoBid] :=
  ⟨List.cons_ne_nil demoBid [],
   ((computeStats_spec [demoBid]).2.2.1 (List.cons_ne_nil demoBid [])).2.2.1
     demoBid (List.mem_singleton_self demoBid)⟩

/-- **C8.** `computePriceChange` is the difference of the two slices' mean
prices and 0 whenever `previous` is empty; `computePercentChange` is
`(meanCurr - meanPrev) / meanPrev * 100` and 0 whenever `previous` is empty
or its mean price is exactly 0, so the division is always guarded. -/
theorem priceChange_spec (current previous : List OrderBookEntry) :
    (previous = [] →
      computePriceChange current previous = 0 ∧
      computePercentChange current previous = 0) ∧
    (previous ≠ [] →
      computePriceChange current previous =
        specMeanPrice current - specMeanPrice previous) ∧
    (previous ≠ [] → specMeanPrice previous = 0 →
      computePercentChange current previous = 0) ∧
    (previous ≠ [] → specMeanPrice previous ≠ 0 →
      computePercentChange current previous =
        (specMeanPrice current - specMeanPrice previous) / specMeanPrice previous * 100) := by
  refine ⟨?_, ?_, ?_, ?_⟩
  · intro h
    subst h
    exact ⟨rfl, rfl⟩
  · intro h
    obtain ⟨e0, t, rfl⟩ := List.exists_cons_of_ne_nil h
    rw [computePriceChange, computeAveragePrice_eq_specMean,
        computeAveragePrice_eq_specMean]
  · intro h hz
    obtain ⟨e0, t, rfl⟩ := List.exists_cons_of_ne_nil h
    rw [computePercentChange]
    rw [computeAveragePrice_eq_specMean]
    rw [if_pos hz]
  · intro h hz
    obtain ⟨e0, t, rfl⟩ := List.exists_cons_of_ne_nil h
    rw [computePercentChange]
    rw [computeAveragePrice_eq_specMean, computeAveragePrice_eq_specMean]
    rw [if_neg hz]

/-- Witness for C8 at concrete slices. -/
theorem priceChange_spec_witness :
    computePriceChange [demoBid] ([] : List OrderBookEntry) = 0 ∧
    (([demoAsk] : List OrderBookEntry) ≠ []) ∧
    computePriceChange [demoBid] [demoAsk] =
      specMeanPrice [demoBid] - specMeanPrice [demoAsk] :=
  ⟨((priceChange_spec [demoBid] []).1 rfl).1,
   List.cons_ne_nil demoAsk [],
   (priceChange_spec [demoBid] [demoAsk]).2.1 (List.cons_ne_nil demoAsk [])⟩

/-! ### The parser and the loader -/

/-- **C3.** Over the tokens of any input line, `stringsToOBE` fails exactly
when fewer than 5 fields are present or either numeric field's `stod` fails
(not parseable, or magnitude out of range); on every other line it returns a
record whose side is `bid` exactly when the side token is `"bid"`, whose
string fields are tokens 0–1, and whose numerics are the parses of
tokens 3–4. -/
theorem stringsToOBE_spec (line : String) :
    ((∃ err, stringsToOBE (tokenize line ',') = Except.error err) ↔
      (tokenize line ',').length < 5 ∨
      (∃ e1, stod ((tokenize line ',').getD 3 "") = Except.error e1) ∨
      (∃ e2, stod ((tokenize line ',').getD 4 "") = Except.error e2)) ∧
    (∀ r, stringsToOBE (tokenize line ',') = Except.ok r →
      r.orderType = (if (tokenize line ',').getD 2 "" = "bid"
        then OrderBookType.bid else OrderBookType.ask) ∧
      r.timestamp = (tokenize line ',').getD 0 "" ∧
      r.product = (tokenize line ',').getD 1 "" ∧
      stod ((tokenize line ',').getD 3 "") = Except.ok r.amount ∧
      stod ((tokenize line ',').getD 4 "") = Except.ok r.price) := by
  unfold stringsToOBE
  by_cases h5 : (tokenize line ',').length < 5
  · simp [h5]
  · rw [if_neg h5]
    simp only [h5, false_or]
    cases h3 : stod ((tokenize line ',').getD 3 "") with
    | error e => simp [h3]
    | ok amount =>
      cases h4 : stod ((tokenize line ',').getD 4 "") with
      | error e => simp [h3, h4]
      | ok price =>
        simp only [h3, h4]
        constructor
        · constructor
          · intro ⟨err, herr⟩
            exact Except.noConfusion herr
          · intro h
            rcases h with ⟨e1, he1⟩ | ⟨e2, he2⟩
            · exact Except.noConfusion he1
            · exact Except.noConfusion he2
        · intro r hr
          have hr2 := Except.ok.inj hr
          subst hr2
          exact ⟨rfl, rfl, rfl, rfl, rfl⟩

/-- Witness for C3 at a concrete under-length line. -/
theorem stringsToOBE_spec_witness :
    (tokenize "zz" ',').length < 5 ∧
    (∃ err, stringsToOBE (tokenize "zz" ',') = Except.error err) := by
  constructor
  · decide
  · exact (stringsToOBE_spec "zz").1.mpr (Or.inl (by decide))

/-- The record a line contributes to the load, when the tokenizer and parser
accept it: `none` for blank lines and for lines `stringsToOBE` rejects. -/
def parsedRecord (line : String) : Option OrderBookEntry :=
  if line = "" then none
  else
    match stringsToOBE (tokenize line ',') with
    | .ok e => some e
    | .error _ => none

theorem readLine_eq (acc : List OrderBookEntry) (line : String) :
    readLine acc line = acc ++ (parsedRecord line).toList := by
  unfold readLine parsedRecord
  by_cases hl : line = ""
  · simp [hl]
  · rw [if_neg hl, if_neg hl]
    by_cases h5 : (tokenize line ',').length < 5
    · rw [if_pos h5]
      have hO : stringsToOBE (tokenize line ',') = Except.error StodError.invalidArgument := by
        unfold stringsToOBE
        rw [if_pos h5]
      rw [hO]
      simp
    · rw [if_neg h5]
      cases h : stringsToOBE (tokenize line ',') <;> simp

theorem foldl_readLine (lines : List String) (acc : List OrderBookEntry) :
    lines.foldl readLine acc = acc ++ lines.filterMap parsedRecord := by
  induction lines generalizing acc with
  | nil => simp
  | cons l t ih =>
    rw [List.foldl_cons, readLine_eq, ih, List.filterMap_cons]
    cases parsedRecord l <;> simp

/-- **C4.** For any source lines — parseable and malformed interleaved, blank
lines skipped — the loader appends exactly the parseable records, in source
order, and returns their count; no malformed line aborts the load or affects
the rest. -/
theorem readCSVInto_partial_failure (lines : List String) (prior : List OrderBookEntry) :
    readCSVInto (some lines) prior =
      (lines.filterMap parsedRecord, ((lines.filterMap parsedRecord).length : ℤ)) := by
  show (lines.foldl readLine [], ((lines.foldl readLine []).length : ℤ)) = _
  rw [foldl_readLine]
  simp

/-- **C2 counterexample.** When the source cannot be opened and the
destination held records beforehand, the destination is *not* cleared: the
call reports 0 but the collection still holds its prior (non-empty) contents,
contradicting "the collection holds exactly the records successfully parsed".
-/
theorem readCSVInto_no_clear_counterexample :
    (readCSVInto none [demoBid]).1 = [demoBid] ∧
    (readCSVInto none [demoBid]).2 = 0 ∧
    ([demoBid] : List OrderBookEntry) ≠ [] :=
  ⟨rfl, rfl, List.cons_ne_nil demoBid []⟩

/-- **C2 (amended).** When the source opens, the destination is cleared before
any append, so afterwards it holds exactly the successfully parsed records
and the parse count is returned; when the source cannot be opened, 0 is
reported and the destination is left with its prior contents unchanged. -/
theorem readCSVInto_amended (prior : List OrderBookEntry) :
    (∀ lines, readCSVInto (some lines) prior =
      (lines.filterMap parsedRecord, ((lines.filterMap parsedRecord).length : ℤ))) ∧
    readCSVInto none prior = (prior, 0) := by
  constructor
  · intro lines
    show (lines.foldl readLine [], ((lines.foldl readLine []).length : ℤ)) = _
    rw [foldl_readLine]
    simp
  · rfl

/-! ### Best prices -/

/-- A Buy record quoting a negative price. -/
def negBidEntry : OrderBookEntry := ⟨-1, 1, "T", "P", OrderBookType.bid⟩

/-- A store whose ("P", "T") bucket holds exactly that Buy record. -/
def negBidBook : OrderBook := OrderBook.insertOrder ⟨[]⟩ negBidEntry

/-- **C1 counterexample.** The ("P", "T") bucket's Buy slice is exactly
`[negBidEntry]`, whose maximum price is `-1`; but `getBestBid` folds upward
from the sentinel `0.0`, so it returns `0`, not the slice maximum. -/
theorem getBestBid_negative_counterexample :
    OrderBook.getOrders negBidBook OrderBookType.bid "P" "T" = [negBidEntry] ∧
    OrderBook.getBestBid negBidBook "P" "T" ≠ negBidEntry.price := by
  constructor
  · rfl
  · decide

theorem getBestBid_eq (book : OrderBook) (product timestamp : String) :
    book.getBestBid product timestamp =
      (book.getOrders OrderBookType.bid product timestamp).foldl
        (fun best e => if best < e.price then e.price else best) 0 := rfl

theorem getBestAsk_eq_nil (book : OrderBook) (product timestamp : String)
    (h : book.getOrders OrderBookType.ask product timestamp = []) :
    book.getBestAsk product timestamp = 0 := by
  unfold OrderBook.getBestAsk
  rw [h]

theorem getBestAsk_eq_cons (book : OrderBook) (product timestamp : String)
    (a0 : OrderBookEntry) (t : List OrderBookEntry)
    (h : book.getOrders OrderBookType.ask product timestamp = a0 :: t) :
    book.getBestAsk product timestamp =
      (a0 :: t).foldl (fun best e => if e.price < best then e.price else best) a0.price := by
  unfold OrderBook.getBestAsk
  rw [h]

/-- **C1 (amended).** `getBestBid` returns the maximum of the sentinel `0.0`
and the Buy-side prices of the bucket — hence the Buy slice's maximum price
whenever that maximum is nonnegative, and `0.0` when the slice is empty —
while `getBestAsk` returns exactly the minimum Sell-side price on a non-empty
Sell slice and `0.0` on an empty one. -/
theorem bestPrice_spec (book : OrderBook) (product timestamp : String) :
    (∀ e ∈ book.getOrders OrderBookType.bid product timestamp,
       e.price ≤ book.getBestBid product timestamp) ∧
    0 ≤ book.getBestBid product timestamp ∧
    (book.getBestBid product timestamp = 0 ∨
       ∃ e ∈ book.getOrders OrderBookType.bid product timestamp,
         book.getBestBid product timestamp = e.price) ∧
    (book.getOrders OrderBookType.bid product timestamp = [] →
       book.getBestBid product timestamp = 0) ∧
    (book.getOrders OrderBookType.ask product timestamp = [] →
       book.getBestAsk product timestamp = 0) ∧
    (book.getOrders OrderBookType.ask product timestamp ≠ [] →
       (∀ e ∈ book.getOrders OrderBookType.ask product timestamp,
          book.getBestAsk product timestamp ≤ e.price) ∧
       ∃ e ∈ book.getOrders OrderBookType.ask product timestamp,
         book.getBestAsk product timestamp = e.price) := by
  refine ⟨?_, ?_, ?_, ?_, ?_, ?_⟩
  · intro e he
    rw [getBestBid_eq]
    exact foldl_max_mem_le 0 he
  · rw [getBestBid_eq]
    exact foldl_max_init_le _ 0
  · rw [getBestBid_eq]
    rcases foldl_max_attained (book.getOrders OrderBookType.bid product timestamp) 0 with h | ⟨x, hx, hfx⟩
    · exact Or.inl h
    · exact Or.inr ⟨x, hx, hfx⟩
  · intro h
    rw [getBestBid_eq, h]
    rfl
  · intro h
    exact getBestAsk_eq_nil book product timestamp h
  · intro h
    obtain ⟨a0, t, ha⟩ := List.exists_cons_of_ne_nil h
    have hask := getBestAsk_eq_cons book product timestamp a0 t ha
    constructor
    · intro e he
      rw [hask]
      rw [ha] at he
      exact foldl_min_le_mem a0.price he
    · rw [hask, ha]
      rcases foldl_min_attained (a0 :: t) a0.price with hi | ⟨x, hx, hfx⟩
      · exact ⟨a0, List.mem_cons_self a0 t, hi⟩
      · exact ⟨x, hx, hfx⟩

/-- A Sell record in the same bucket as `demoBid`. -/
def demoAskSame : OrderBookEntry :=
  ⟨20, 2, "2020/01/01 00:00:00", "X/Y", OrderBookType.ask⟩

/-- A store holding `demoBid` and `demoAskSame` in one bucket. -/
def demoBook : OrderBook :=
  OrderBook.insertOrder (OrderBook.insertOrder ⟨[]⟩ demoBid) demoAskSame

/-- Witness for the amended C1 at a concrete store. -/
theorem bestPrice_spec_witness :
    (OrderBook.getOrders demoBook OrderBookType.ask "X/Y" "2020/01/01 00:00:00" ≠ []) ∧
    OrderBook.getBestAsk demoBook "X/Y" "2020/01/01 00:00:00" ≤ demoAskSame.price := by
  have hne : OrderBook.getOrders demoBook OrderBookType.ask "X/Y" "2020/01/01 00:00:00" ≠ [] := by
    decide
  refine ⟨hne, ?_⟩
  exact ((bestPrice_spec demoBook "X/Y" "2020/01/01 00:00:00").2.2.2.2.2 hne).1
    demoAskSame (by decide)

/-! ### The grouping index -/

theorem keyLt_irrefl (k : String × String) : keyLt k k = false := by
  simp [keyLt, strLt_irrefl]

theorem keyLt_trans {a b c : String × String}
    (hab : keyLt a b = true) (hbc : keyLt b c = true) : keyLt a c = true := by
  simp only [keyLt, Bool.or_eq_true, Bool.and_eq_true, decide_eq_true_eq] at hab hbc ⊢
  rcases hab with h1 | ⟨he1, h1⟩ <;> rcases hbc with h2 | ⟨he2, h2⟩
  · exact Or.inl (strLt_trans h1 h2)
  · exact Or.inl (by rw [← he2]; exact h1)
  · exact Or.inl (by rw [he1]; exact h2)
  · exact Or.inr ⟨he1.trans he2, strLt_trans h1 h2⟩

theorem keyLt_of_not {a b : String × String}
    (hab : keyLt a b = false) (hne : a ≠ b) : keyLt b a = true := by
  simp only [keyLt, Bool.or_eq_false_iff, Bool.and_eq_false_iff,
    decide_eq_false_iff_not] at hab
  simp only [keyLt, Bool.or_eq_true, Bool.and_eq_true, decide_eq_true_eq]
  rcases strLt_trichotomy a.1 b.1 with h1 | h1 | h1
  · exact absurd h1 (by rw [hab.1]; exact Bool.noConfusion)
  · rcases hab.2 with hc | hc
    · exact absurd h1 hc
    · rcases strLt_trichotomy a.2 b.2 with h2 | h2 | h2
      · exact absurd h2 (by rw [hc]; exact Bool.noConfusion)
      · exact absurd (Prod.ext h1 h2) hne
      · exact Or.inr ⟨h1.symm, h2⟩
  · exact Or.inl h1

theorem keyLt_ne {a b : String × String} (h : keyLt a b = true) : a ≠ b := by
  intro he
  rw [he, keyLt_irrefl] at h
  exact Bool.noConfusion h

theorem bool_eq_false {b : Bool} (h : ¬ b = true) : b = false := by
  cases b with
  | false => rfl
  | true => exact absurd rfl h

theorem mem_mapPush_cases (m : List ((String × String) × List OrderBookEntry))
    (k : String × String) (e : OrderBookEntry)
    (kv : (String × String) × List OrderBookEntry) (h : kv ∈ mapPush m k e) :
    kv.1 = k ∨ kv ∈ m := by
  induction m with
  | nil =>
    rcases List.mem_singleton.mp h with rfl
    exact Or.inl rfl
  | cons kv1 rest ih =>
    obtain ⟨k1, v⟩ := kv1
    unfold mapPush at h
    by_cases hlt : keyLt k k1
    · rw [if_pos hlt] at h
      rcases List.mem_cons.mp h with h2 | h2
      · rw [h2]; exact Or.inl rfl
      · exact Or.inr h2
    · rw [if_neg hlt] at h
      by_cases he : k = k1
      · rw [if_pos he] at h
        rcases List.mem_cons.mp h with h2 | h2
        · rw [h2]; exact Or.inl he.symm
        · exact Or.inr (List.mem_cons_of_mem _ h2)
      · rw [if_neg he] at h
        rcases List.mem_cons.mp h with h2 | h2
        · rw [h2]; exact Or.inr (List.mem_cons_self _ _)
        · rcases ih h2 with h3 | h3
          · exact Or.inl h3
          · exact Or.inr (List.mem_cons_of_mem _ h3)

/-- The `std::map` representation invariant: keys strictly increasing. -/
def MapSorted (m : List ((String × String) × List OrderBookEntry)) : Prop :=
  List.Pairwise (fun kv kv2 => keyLt kv.1 kv2.1 = true) m

theorem mapFind_eq_none_iff (m : List ((String × String) × List OrderBookEntry))
    (k : String × String) :
    mapFind m k = none ↔ ∀ kv ∈ m, k ≠ kv.1 := by
  induction m with
  | nil => simp [mapFind]
  | cons kv rest ih =>
    obtain ⟨k1, v⟩ := kv
    unfold mapFind
    by_cases he : k = k1
    · simp [he]
    · rw [if_neg he]
      simp only [List.mem_cons]
      constructor
      · intro h kv2 hkv2
        rcases hkv2 with h2 | h2
        · rw [h2]; exact he
        · exact (ih.mp h) kv2 h2
      · intro h
        exact ih.mpr (fun kv2 h2 => h kv2 (Or.inr h2))

theorem mapSorted_push (m : List ((String × String) × List OrderBookEntry))
    (k : String × String) (e : OrderBookEntry) (hs : MapSorted m) :
    MapSorted (mapPush m k e) := by
  induction m with
  | nil => exact List.pairwise_singleton _ _
  | cons kv rest ih =>
    obtain ⟨k1, v⟩ := kv
    rcases List.pairwise_cons.mp hs with ⟨hhead, htail⟩
    unfold mapPush
    by_cases hlt : keyLt k k1
    · rw [if_pos hlt]
      refine List.pairwise_cons.mpr ⟨?_, hs⟩
      intro kv2 hkv2
      rcases List.mem_cons.mp hkv2 with h2 | h2
      · rw [h2]; exact hlt
      · exact keyLt_trans hlt (hhead kv2 h2)
    · rw [if_neg hlt]
      by_cases he : k = k1
      · rw [if_pos he]
        exact List.pairwise_cons.mpr ⟨hhead, htail⟩
      · rw [if_neg he]
        refine List.pairwise_cons.mpr ⟨?_, ih htail⟩
        intro kv2 hkv2
        have hmem := mem_mapPush_cases rest k e kv2 hkv2
        rcases hmem with h2 | h2
        · rw [h2]
          exact keyLt_of_not (bool_eq_false hlt) he
        · exact hhead kv2 h2

theorem mapFind_cons (k1 : String × String) (v : List OrderBookEntry)
    (rest : List ((String × String) × List OrderBookEntry)) (k : String × String) :
    mapFind ((k1, v) :: rest) k = if k = k1 then some v else mapFind rest k := rfl

theorem mapFind_mapPush_mem (m : List ((String × String) × List OrderBookEntry))
    (k : String × String) (e : OrderBookEntry) :
    ∃ bucket, mapFind (mapPush m k e) k = some bucket ∧ e ∈ bucket := by
  induction m with
  | nil =>
    refine ⟨[e], ?_, List.mem_singleton_self e⟩
    rw [show mapPush [] k e = [(k, [e])] from rfl, mapFind_cons, if_pos rfl]
  | cons kv rest ih =>
    obtain ⟨k1, v⟩ := kv
    unfold mapPush
    by_cases hlt : keyLt k k1
    · rw [if_pos hlt]
      refine ⟨[e], ?_, List.mem_singleton_self e⟩
      rw [mapFind_cons, if_pos rfl]
    · rw [if_neg hlt]
      by_cases he : k = k1
      · rw [if_pos he]
        refine ⟨v ++ [e], ?_, List.mem_append_right v (List.mem_singleton_self e)⟩
        rw [mapFind_cons, if_pos he]
      · rw [if_neg he]
        obtain ⟨bucket, hf, hm⟩ := ih
        refine ⟨bucket, ?_, hm⟩
        rw [mapFind_cons, if_neg he]
        exact hf

theorem mapFind_mapPush_self (m : List ((String × String) × List OrderBookEntry))
    (k : String × String) (e : OrderBookEntry) (hs : MapSorted m) :
    mapFind (mapPush m k e) k = some ((mapFind m k).getD [] ++ [e]) := by
  induction m with
  | nil =>
    rw [show mapPush [] k e = [(k, [e])] from rfl, mapFind_cons, if_pos rfl]
    rfl
  | cons kv rest ih =>
    obtain ⟨k1, v⟩ := kv
    rcases List.pairwise_cons.mp hs with ⟨hhead, htail⟩
    unfold mapPush
    by_cases hlt : keyLt k k1
    · rw [if_pos hlt]
      have hfind : mapFind ((k1, v) :: rest) k = none := by
        rw [mapFind_eq_none_iff]
        intro kv2 hkv2
        rcases List.mem_cons.mp hkv2 with h2 | h2
        · rw [h2]; exact keyLt_ne hlt
        · exact keyLt_ne (keyLt_trans hlt (hhead kv2 h2))
      rw [mapFind_cons, if_pos rfl, hfind]
      rfl
    · rw [if_neg hlt]
      by_cases he : k = k1
      · rw [if_pos he]
        rw [mapFind_cons, if_pos he, mapFind_cons, if_pos he]
        rfl
      · rw [if_neg he]
        rw [mapFind_cons, if_neg he, mapFind_cons, if_neg he]
        exact ih htail

theorem mapFind_mapPush_other (m : List ((String × String) × List OrderBookEntry))
    (k k2 : String × String) (e : OrderBookEntry) (hne : k2 ≠ k) :
    mapFind (mapPush m k e) k2 = mapFind m k2 := by
  induction m with
  | nil =>
    rw [show mapPush [] k e = [(k, [e])] from rfl, mapFind_cons, if_neg hne]
  | cons kv rest ih =>
    obtain ⟨k1, v⟩ := kv
    unfold mapPush
    by_cases hlt : keyLt k k1
    · rw [if_pos hlt]
      rw [mapFind_cons, if_neg hne]
    · rw [if_neg hlt]
      by_cases he : k = k1
      · rw [if_pos he]
        have h2 : k2 ≠ k1 := by rw [← he]; exact hne
        rw [mapFind_cons, if_neg h2, mapFind_cons, if_neg h2]
      · rw [if_neg he]
        by_cases h2 : k2 = k1
        · rw [mapFind_cons, if_pos h2, mapFind_cons, if_pos h2]
        · rw [mapFind_cons, if_neg h2, mapFind_cons, if_neg h2]
          exact ih

theorem getOrders_mem_iff (book : OrderBook) (type : OrderBookType)
    (product timestamp : String) (e : OrderBookEntry) :
    e ∈ book.getOrders type product timestamp ↔
      ∃ bucket, mapFind book.ordersByProductTime (product, timestamp) = some bucket ∧
        e ∈ bucket ∧ e.orderType = type := by
  unfold OrderBook.getOrders
  cases hv : mapFind book.ordersByProductTime (product, timestamp) with
  | none =>
    simp
  | some bucket =>
    simp only [List.mem_filter, decide_eq_true_eq, Option.some.injEq]
    constructor
    · intro ⟨h1, h2⟩
      exact ⟨bucket, rfl, h1, h2⟩
    · intro ⟨b2, hb2, h1, h2⟩
      rw [hb2]
      exact ⟨h1, h2⟩

theorem load_fold_mem (l : List OrderBookEntry)
    (m : List ((String × String) × List OrderBookEntry)) (r : OrderBookEntry)
    (hs : MapSorted m)
    (h : r ∈ l ∨ ∃ b, mapFind m (r.product, r.timestamp) = some b ∧ r ∈ b) :
    ∃ b, mapFind (l.foldl (fun m2 e => mapPush m2 (e.product, e.timestamp) e) m)
        (r.product, r.timestamp) = some b ∧ r ∈ b := by
  induction l generalizing m with
  | nil =>
    rcases h with h | h
    · cases h
    · exact h
  | cons e t ih =>
    rw [List.foldl_cons]
    apply ih (mapPush m (e.product, e.timestamp) e) (mapSorted_push m _ e hs)
    rcases h with h | ⟨b, hb, hrb⟩
    · rcases List.mem_cons.mp h with he | hrt
      · subst he
        exact Or.inr (mapFind_mapPush_mem m (r.product, r.timestamp) r)
      · exact Or.inl hrt
    · right
      by_cases hk : (r.product, r.timestamp) = (e.product, e.timestamp)
      · rw [← hk]
        rw [mapFind_mapPush_self m (r.product, r.timestamp) e hs, hb]
        exact ⟨b ++ [e], rfl, List.mem_append_left [e] hrb⟩
      · rw [mapFind_mapPush_other m (e.product, e.timestamp) (r.product, r.timestamp) e hk]
        exact ⟨b, hb, hrb⟩

/-- **C6.** Every record accepted into the store — by a bulk `load` or an
`insertOrder` — is found by `getOrders` under its own side, market and
timestamp; conversely `getOrders` returns exactly the matching-side records
of the (market, timestamp) bucket, and the empty collection when no such
bucket exists. -/
theorem getOrders_spec (book : OrderBook) (r : OrderBookEntry)
    (type : OrderBookType) (product timestamp : String) :
    r ∈ OrderBook.getOrders (book.insertOrder r) r.orderType r.product r.timestamp ∧
    (∀ file, r ∈ readCSV file →
       r ∈ OrderBook.getOrders (OrderBook.load file) r.orderType r.product r.timestamp) ∧
    (∀ e, e ∈ book.getOrders type product timestamp ↔
       ∃ bucket, mapFind book.ordersByProductTime (product, timestamp) = some bucket ∧
         e ∈ bucket ∧ e.orderType = type) ∧
    (mapFind book.ordersByProductTime (product, timestamp) = none →
       book.getOrders type product timestamp = []) := by
  refine ⟨?_, ?_, ?_, ?_⟩
  · rw [getOrders_mem_iff]
    obtain ⟨b, hf, hm⟩ :=
      mapFind_mapPush_mem book.ordersByProductTime (r.product, r.timestamp) r
    exact ⟨b, hf, hm, rfl⟩
  · intro file hr
    rw [getOrders_mem_iff]
    obtain ⟨b, hf, hm⟩ :=
      load_fold_mem (readCSV file) [] r List.Pairwise.nil (Or.inl hr)
    exact ⟨b, hf, hm, rfl⟩
  · intro e
    exact getOrders_mem_iff book type product timestamp e
  · intro h
    unfold OrderBook.getOrders
    rw [h]

/-- Witness for C6: a concrete record inserted into the empty store is found
by `getOrders` under its own key and side. -/
theorem getOrders_spec_witness :
    demoBid ∈ OrderBook.getOrders (OrderBook.insertOrder ⟨[]⟩ demoBid)
      demoBid.orderType demoBid.product demoBid.timestamp :=
  (getOrders_spec ⟨[]⟩ demoBid demoBid.orderType demoBid.product demoBid.timestamp).1

/-! ### The `std::set<std::string>` model -/

theorem mem_setInsert (a s : String) (l : List String) :
    a ∈ setInsert s l ↔ a = s ∨ a ∈ l := by
  induction l with
  | nil => simp [setInsert]
  | cons x xs ih =>
    unfold setInsert
    by_cases hlt : strLt s x
    · rw [if_pos hlt]
      exact List.mem_cons
    · rw [if_neg hlt]
      by_cases he : s = x
      · rw [if_pos he]
        subst he
        constructor
        · exact Or.inr
        · intro h
          rcases h with h | h
          · rw [h]; exact List.mem_cons_self s xs
          · exact h
      · rw [if_neg he]
        constructor
        · intro h
          rcases List.mem_cons.mp h with h2 | h2
          · exact Or.inr (by rw [h2]; exact List.mem_cons_self x xs)
          · rcases ih.mp h2 with h3 | h3
            · exact Or.inl h3
            · exact Or.inr (List.mem_cons_of_mem x h3)
        · intro h
          rcases h with h2 | h2
          · exact List.mem_cons_of_mem x (ih.mpr (Or.inl h2))
          · rcases List.mem_cons.mp h2 with h3 | h3
            · rw [h3]; exact List.mem_cons_self x _
            · exact List.mem_cons_of_mem x (ih.mpr (Or.inr h3))

theorem setInsert_sorted (s : String) (l : List String)
    (hs : List.Pairwise (fun a b => strLt a b = true) l) :
    List.Pairwise (fun a b => strLt a b = true) (setInsert s l) := by
  induction l with
  | nil => exact List.pairwise_singleton _ _
  | cons x xs ih =>
    rcases List.pairwise_cons.mp hs with ⟨hhead, htail⟩
    unfold setInsert
    by_cases hlt : strLt s x
    · rw [if_pos hlt]
      refine List.pairwise_cons.mpr ⟨?_, hs⟩
      intro b hb
      rcases List.mem_cons.mp hb with h2 | h2
      · rw [h2]; exact hlt
      · exact strLt_trans hlt (hhead b h2)
    · rw [if_neg hlt]
      by_cases he : s = x
      · rw [if_pos he]; exact hs
      · rw [if_neg he]
        refine List.pairwise_cons.mpr ⟨?_, ih htail⟩
        intro b hb
        rcases (mem_setInsert b s xs).mp hb with h2 | h2
        · rw [h2]
          rcases strLt_trichotomy s x with h3 | h3 | h3
          · exact absurd h3 hlt
          · exact absurd h3 he
          · exact h3
        · exact hhead b h2

theorem knownProducts_fold_mem
    (m : List ((String × String) × List OrderBookEntry)) (acc : List String)
    (a : String) :
    a ∈ m.foldl (fun s kv => setInsert kv.1.1 s) acc ↔
      a ∈ acc ∨ ∃ kv ∈ m, kv.1.1 = a := by
  induction m generalizing acc with
  | nil => simp
  | cons kv rest ih =>
    rw [List.foldl_cons, ih, mem_setInsert]
    constructor
    · intro h
      rcases h with (h | h) | h
      · exact Or.inr ⟨kv, List.mem_cons_self kv rest, h.symm⟩
      · exact Or.inl h
      · obtain ⟨kv2, h2, h3⟩ := h
        exact Or.inr ⟨kv2, List.mem_cons_of_mem kv h2, h3⟩
    · intro h
      rcases h with h | h
      · exact Or.inl (Or.inr h)
      · obtain ⟨kv2, h2, h3⟩ := h
        rcases List.mem_cons.mp h2 with h4 | h4
        · rw [h4] at h3
          exact Or.inl (Or.inl h3.symm)
        · exact Or.inr ⟨kv2, h4, h3⟩

theorem knownProducts_fold_sorted
    (m : List ((String × String) × List OrderBookEntry)) (acc : List String)
    (hs : List.Pairwise (fun a b => strLt a b = true) acc) :
    List.Pairwise (fun a b => strLt a b = true)
      (m.foldl (fun s kv => setInsert kv.1.1 s) acc) := by
  induction m generalizing acc with
  | nil => exact hs
  | cons kv rest ih =>
    rw [List.foldl_cons]
    exact ih (setInsert kv.1.1 acc) (setInsert_sorted kv.1.1 acc hs)

/-- **C10.** `getKnownProducts` returns exactly the distinct market
identifiers occurring as the market component of a key of the index, with no
duplicates, in strictly ascending lexicographic order. -/
theorem getKnownProducts_spec (book : OrderBook) :
    List.Sorted (· < ·) (OrderBook.getKnownProducts book) ∧
    (OrderBook.getKnownProducts book).Nodup ∧
    ∀ s, s ∈ OrderBook.getKnownProducts book ↔
      ∃ kv ∈ book.ordersByProductTime, kv.1.1 = s := by
  have hsorted := knownProducts_fold_sorted book.ordersByProductTime []
    List.Pairwise.nil
  refine ⟨?_, ?_, ?_⟩
  · exact hsorted.imp (fun h => strLt_iff_lt.mp h)
  · exact hsorted.imp (fun h => strLt_ne h)
  · intro s
    rw [show OrderBook.getKnownProducts book =
      book.ordersByProductTime.foldl (fun s2 kv => setInsert kv.1.1 s2) [] from rfl]
    rw [knownProducts_fold_mem]
    simp

/-- Witness for C10: the demo store has exactly its one market, and it is
listed. -/
theorem getKnownProducts_spec_witness :
    "X/Y" ∈ OrderBook.getKnownProducts demoBook :=
  ((getKnownProducts_spec demoBook).2.2 "X/Y").mpr
    ⟨(("X/Y", "2020/01/01 00:00:00"), [demoBid, demoAskSame]), by decide, rfl⟩

/-! ### Time navigation -/

/-- Strictly ascending (hence duplicate-free) list of strings, the
`std::set<std::string>` invariant. -/
def SortedStr (l : List String) : Prop :=
  List.Pairwise (fun a b => strLt a b = true) l

theorem ts_fold_mem (l : List OrderBookEntry) (acc : List String) (t : String) :
    t ∈ l.foldl (fun acc2 e => setInsert e.timestamp acc2) acc ↔
      t ∈ acc ∨ ∃ e ∈ l, e.timestamp = t := by
  induction l generalizing acc with
  | nil => simp
  | cons e rest ih =>
    rw [List.foldl_cons, ih, mem_setInsert]
    constructor
    · intro h
      rcases h with (h | h) | h
      · exact Or.inr ⟨e, List.mem_cons_self e rest, h.symm⟩
      · exact Or.inl h
      · obtain ⟨e2, h2, h3⟩ := h
        exact Or.inr ⟨e2, List.mem_cons_of_mem e h2, h3⟩
    · intro h
      rcases h with h | h
      · exact Or.inl (Or.inr h)
      · obtain ⟨e2, h2, h3⟩ := h
        rcases List.mem_cons.mp h2 with h4 | h4
        · rw [h4] at h3
          exact Or.inl (Or.inl h3.symm)
        · exact Or.inr ⟨e2, h4, h3⟩

theorem ts_fold_sorted (l : List OrderBookEntry) (acc : List String)
    (hs : SortedStr acc) :
    SortedStr (l.foldl (fun acc2 e => setInsert e.timestamp acc2) acc) := by
  induction l generalizing acc with
  | nil => exact hs
  | cons e rest ih =>
    rw [List.foldl_cons]
    exact ih (setInsert e.timestamp acc) (setInsert_sorted e.timestamp acc hs)

/-- Membership in the distinct-timestamp set. -/
theorem mem_timestampsOf (entries : List OrderBookEntry) (t : String) :
    t ∈ timestampsOf entries ↔ ∃ e ∈ entries, e.timestamp = t := by
  rw [show timestampsOf entries =
    entries.foldl (fun acc e => setInsert e.timestamp acc) [] from rfl]
  rw [ts_fold_mem]
  simp

theorem sorted_timestampsOf (entries : List OrderBookEntry) :
    SortedStr (timestampsOf entries) :=
  ts_fold_sorted entries [] List.Pairwise.nil

/-- On a sorted list, `find?` for "greater than x" (`upper_bound`) returns a
member greater than `x` that is least among all such members. -/
theorem find?_gt_props {S : List String} {x u : String} (hs : SortedStr S)
    (hf : S.find? (fun t => strLt x t) = some u) :
    u ∈ S ∧ strLt x u = true ∧
      ∀ b ∈ S, strLt x b = true → u = b ∨ strLt u b = true := by
  refine ⟨List.mem_of_find?_eq_some hf, List.find?_some hf, ?_⟩
  induction S with
  | nil => exact absurd hf (by simp)
  | cons y ys ih =>
    rcases List.pairwise_cons.mp hs with ⟨hhead, htail⟩
    intro b hb hxb
    by_cases hy : strLt x y
    · rw [List.find?_cons_of_pos _ hy] at hf
      have hu : u = y := (Option.some.inj hf).symm
      subst hu
      rcases List.mem_cons.mp hb with h2 | h2
      · exact Or.inl h2.symm
      · exact Or.inr (hhead b h2)
    · rw [List.find?_cons_of_neg _ hy] at hf
      rcases List.mem_cons.mp hb with h2 | h2
      · rw [h2] at hxb
        exact absurd hxb hy
      · exact ih htail hf b h2 hxb

/-- On a sorted list, every element smaller than `x` lies in the
`takeWhile (· < x)` segment (the part before `lower_bound`). -/
theorem mem_takeWhile_lt {S : List String} {x u : String} (hs : SortedStr S)
    (hu : u ∈ S) (hux : strLt u x = true) :
    u ∈ S.takeWhile (fun t => strLt t x) := by
  induction S with
  | nil => cases hu
  | cons y ys ih =>
    rcases List.pairwise_cons.mp hs with ⟨hhead, htail⟩
    by_cases hy : strLt y x
    · have heq : List.takeWhile (fun t => strLt t x) (y :: ys) =
          y :: List.takeWhile (fun t => strLt t x) ys := by
        simp [List.takeWhile_cons, hy]
      rw [heq]
      rcases List.mem_cons.mp hu with h2 | h2
      · rw [h2]; exact List.mem_cons_self y _
      · exact List.mem_cons_of_mem y (ih htail h2)
    · rcases List.mem_cons.mp hu with h2 | h2
      · rw [h2] at hux
        exact absurd hux hy
      · exact absurd (strLt_trans (hhead u h2) hux) hy

/-- Elements of `takeWhile` satisfy the predicate and belong to the list. -/
theorem mem_takeWhile_props {S : List String} {p : String → Bool} {u : String}
    (hu : u ∈ S.takeWhile p) : p u = true ∧ u ∈ S :=
  ⟨List.mem_takeWhile_imp hu, (List.takeWhile_sublist p).subset hu⟩

/-- The last element of a sorted list is its maximum. -/
theorem sorted_getLast?_max {S : List String} {a : String} (hs : SortedStr S)
    (ha : S.getLast? = some a) :
    ∀ b ∈ S, b = a ∨ strLt b a = true := by
  induction S with
  | nil => exact absurd ha (by simp)
  | cons y ys ih =>
    rcases List.pairwise_cons.mp hs with ⟨hhead, htail⟩
    intro b hb
    cases ys with
    | nil =>
      have hay : a = y := by
        rw [List.getLast?_singleton] at ha
        exact (Option.some.inj ha).symm
      rcases List.mem_cons.mp hb with h2 | h2
      · exact Or.inl (h2.trans hay.symm)
      · cases h2
    | cons z zs =>
      rw [List.getLast?_cons_cons] at ha
      rcases List.mem_cons.mp hb with h2 | h2
      · have haz := ih htail ha z (List.mem_cons_self z zs)
        have hyz := hhead z (List.mem_cons_self z zs)
        rcases haz with h3 | h3
        · exact Or.inr (by rw [h2, ← h3]; exact hyz)
        · exact Or.inr (by rw [h2]; exact strLt_trans hyz h3)
      · exact ih htail ha b h2

theorem getLast?_isSome_of_mem {S : List String} {u : String} (hu : u ∈ S) :
    ∃ a, S.getLast? = some a := by
  cases S with
  | nil => cases hu
  | cons y ys => exact ⟨(y :: ys).getLast (by simp), List.getLast?_eq_getLast _ _⟩

/-- Characterization of `getNextTime`: when some record's timestamp exceeds
`current` it returns the least such distinct timestamp, else the sentinel. -/
theorem getNextTime_props (entries : List OrderBookEntry) (x : String) :
    ((∃ e ∈ entries, strLt x e.timestamp = true) →
       (∃ e ∈ entries, e.timestamp = getNextTime x entries) ∧
       strLt x (getNextTime x entries) = true ∧
       ∀ e ∈ entries, strLt x e.timestamp = true →
         getNextTime x entries = e.timestamp ∨
         strLt (getNextTime x entries) e.timestamp = true) ∧
    ((¬ ∃ e ∈ entries, strLt x e.timestamp = true) → getNextTime x entries = "") := by
  constructor
  · intro ⟨e, he, hxe⟩
    have hmem : e.timestamp ∈ timestampsOf entries :=
      (mem_timestampsOf entries e.timestamp).mpr ⟨e, he, rfl⟩
    cases hf : (timestampsOf entries).find? (fun t => strLt x t) with
    | none =>
      have := List.find?_eq_none.mp hf e.timestamp hmem
      exact absurd hxe this
    | some u =>
      obtain ⟨huS, hxu, humin⟩ := find?_gt_props (sorted_timestampsOf entries) hf
      have hres : getNextTime x entries = u := by
        unfold getNextTime
        rw [hf]
      refine ⟨?_, ?_, ?_⟩
      · obtain ⟨e2, he2, ht2⟩ := (mem_timestampsOf entries u).mp huS
        exact ⟨e2, he2, by rw [ht2, hres]⟩
      · rw [hres]; exact hxu
      · intro e2 he2 hxe2
        rw [hres]
        exact humin e2.timestamp
          ((mem_timestampsOf entries e2.timestamp).mpr ⟨e2, he2, rfl⟩) hxe2
  · intro h
    cases hf : (timestampsOf entries).find? (fun t => strLt x t) with
    | none =>
      unfold getNextTime
      rw [hf]
    | some u =>
      obtain ⟨huS, hxu, _⟩ := find?_gt_props (sorted_timestampsOf entries) hf
      obtain ⟨e2, he2, ht2⟩ := (mem_timestampsOf entries u).mp huS
      exact absurd ⟨e2, he2, by rw [ht2]; exact hxu⟩ h

/-- Characterization of `getPreviousTime`: when some record's timestamp is
below `current` it returns the greatest such distinct timestamp, else the
sentinel. -/
theorem getPreviousTime_props (entries : List OrderBookEntry) (x : String) :
    ((∃ e ∈ entries, strLt e.timestamp x = true) →
       (∃ e ∈ entries, e.timestamp = getPreviousTime x entries) ∧
       strLt (getPreviousTime x entries) x = true ∧
       ∀ e ∈ entries, strLt e.timestamp x = true →
         e.timestamp = getPreviousTime x entries ∨
         strLt e.timestamp (getPreviousTime x entries) = true) ∧
    ((¬ ∃ e ∈ entries, strLt e.timestamp x = true) →
       getPreviousTime x entries = "") := by
  have hsorted := sorted_timestampsOf entries
  have hsortedTW : SortedStr ((timestampsOf entries).takeWhile (fun t => strLt t x)) :=
    List.Pairwise.sublist (List.takeWhile_sublist _) hsorted
  constructor
  · intro ⟨e, he, hex⟩
    have hmem : e.timestamp ∈ timestampsOf entries :=
      (mem_timestampsOf entries e.timestamp).mpr ⟨e, he, rfl⟩
    have hTW := mem_takeWhile_lt hsorted hmem hex
    obtain ⟨a, ha⟩ := getLast?_isSome_of_mem hTW
    have hres : getPreviousTime x entries = a := by
      unfold getPreviousTime
      rw [ha]
    obtain ⟨hpa, haS⟩ := mem_takeWhile_props (List.mem_of_getLast?_eq_some ha)
    refine ⟨?_, ?_, ?_⟩
    · obtain ⟨e2, he2, ht2⟩ := (mem_timestampsOf entries a).mp haS
      exact ⟨e2, he2, by rw [ht2, hres]⟩
    · rw [hres]; exact hpa
    · intro e2 he2 he2x
      rw [hres]
      have hmem2 : e2.timestamp ∈ timestampsOf entries :=
        (mem_timestampsOf entries e2.timestamp).mpr ⟨e2, he2, rfl⟩
      exact sorted_getLast?_max hsortedTW ha e2.timestamp
        (mem_takeWhile_lt hsorted hmem2 he2x)
  · intro h
    cases hTW : (timestampsOf entries).takeWhile (fun t => strLt t x) with
    | nil =>
      unfold getPreviousTime
      rw [hTW]
      rfl
    | cons y ys =>
      have hy : y ∈ (timestampsOf entries).takeWhile (fun t => strLt t x) := by
        rw [hTW]; exact List.mem_cons_self y ys
      obtain ⟨hpy, hyS⟩ := mem_takeWhile_props hy
      obtain ⟨e2, he2, ht2⟩ := (mem_timestampsOf entries y).mp hyS
      exact absurd ⟨e2, he2, by rw [ht2]; exact hpy⟩ h

/-- **C5.** For every entry collection and every string `current`,
`getNextTime` returns the smallest distinct timestamp strictly greater than
`current` (in lexicographic string order) and `getPreviousTime` the largest
strictly smaller one; each returns the empty-string sentinel when no such
neighbor exists. -/
theorem nextPrev_time_spec (entries : List OrderBookEntry) (current : String) :
    ((∃ e ∈ entries, strLt current e.timestamp = true) →
       (∃ e ∈ entries, e.timestamp = getNextTime current entries) ∧
       strLt current (getNextTime current entries) = true ∧
       ∀ e ∈ entries, strLt current e.timestamp = true →
         getNextTime current entries = e.timestamp ∨
         strLt (getNextTime current entries) e.timestamp = true) ∧
    ((¬ ∃ e ∈ entries, strLt current e.timestamp = true) →
       getNextTime current entries = "") ∧
    ((∃ e ∈ entries, strLt e.timestamp current = true) →
       (∃ e ∈ entries, e.timestamp = getPreviousTime current entries) ∧
       strLt (getPreviousTime current entries) current = true ∧
       ∀ e ∈ entries, strLt e.timestamp current = true →
         e.timestamp = getPreviousTime current entries ∨
         strLt e.timestamp (getPreviousTime current entries) = true) ∧
    ((¬ ∃ e ∈ entries, strLt e.timestamp current = true) →
       getPreviousTime current entries = "") :=
  ⟨(getNextTime_props entries current).1,
   (getNextTime_props entries current).2,
   (getPreviousTime_props entries current).1,
   (getPreviousTime_props entries current).2⟩

/-- Witness for C5 at concrete records and a concrete current time. -/
theorem nextPrev_time_spec_witness :
    (∃ e ∈ [demoBid, demoAsk], strLt "2020/01/01 00:00:03" e.timestamp = true) ∧
    strLt "2020/01/01 00:00:03"
      (getNextTime "2020/01/01 00:00:03" [demoBid, demoAsk]) = true := by
  have hex : ∃ e ∈ [demoBid, demoAsk], strLt "2020/01/01 00:00:03" e.timestamp = true := by
    decide
  exact ⟨hex, ((nextPrev_time_spec [demoBid, demoAsk] "2020/01/01 00:00:03").1 hex).2.1⟩

theorem filter_length_le_of_imp {p q : String → Bool} (S : List String)
    (himp : ∀ v ∈ S, p v = true → q v = true) :
    (S.filter p).length ≤ (S.filter q).length := by
  induction S with
  | nil => exact le_refl 0
  | cons y ys ih =>
    have iht := ih (fun v hv => himp v (List.mem_cons_of_mem y hv))
    by_cases hp : p y
    · have hq := himp y (List.mem_cons_self y ys) hp
      rw [List.filter_cons_of_pos hp, List.filter_cons_of_pos hq]
      simpa using iht
    · rw [List.filter_cons_of_neg hp]
      by_cases hq : q y
      · rw [List.filter_cons_of_pos hq]
        exact le_trans iht (Nat.le_succ _)
      · rw [List.filter_cons_of_neg hq]
        exact iht

theorem filter_length_lt_of {p q : String → Bool} (S : List String)
    (himp : ∀ v ∈ S, p v = true → q v = true) (w : String) (hw : w ∈ S)
    (hqw : q w = true) (hpw : p w = false) :
    (S.filter p).length < (S.filter q).length := by
  induction S with
  | nil => cases hw
  | cons y ys ih =>
    have htail : ∀ v ∈ ys, p v = true → q v = true :=
      fun v hv => himp v (List.mem_cons_of_mem y hv)
    rcases List.mem_cons.mp hw with hwy | hwys
    · have hpy : p y = false := by rw [← hwy]; exact hpw
      have hqy : q y = true := by rw [← hwy]; exact hqw
      rw [List.filter_cons_of_neg (by rw [hpy]; exact Bool.noConfusion),
          List.filter_cons_of_pos hqy]
      exact Nat.lt_succ_of_le (filter_length_le_of_imp ys htail)
    · by_cases hp : p y
      · have hq := himp y (List.mem_cons_self y ys) hp
        rw [List.filter_cons_of_pos hp, List.filter_cons_of_pos hq]
        exact Nat.succ_lt_succ (ih htail hwys)
      · rw [List.filter_cons_of_neg hp]
        by_cases hq : q y
        · rw [List.filter_cons_of_pos hq]
          exact Nat.lt_succ_of_le (le_of_lt (ih htail hwys))
        · rw [List.filter_cons_of_neg hq]
          exact ih htail hwys

theorem next_reaches_aux (entries : List OrderBookEntry) :
    ∀ n x t2,
      ((timestampsOf entries).filter (fun u => strLt x u)).length ≤ n →
      t2 ∈ timestampsOf entries → strLt x t2 = true →
      ∃ k, (fun s => getNextTime s entries)^[k] x = t2 := by
  intro n
  induction n with
  | zero =>
    intro x t2 hlen ht2 hlt
    have hmem : t2 ∈ (timestampsOf entries).filter (fun u => strLt x u) :=
      List.mem_filter.mpr ⟨ht2, hlt⟩
    have hpos := List.length_pos_of_mem hmem
    omega
  | succ n ih =>
    intro x t2 hlen ht2 hlt
    cases hf : (timestampsOf entries).find? (fun t => strLt x t) with
    | none =>
      exact absurd hlt (List.find?_eq_none.mp hf t2 ht2)
    | some u =>
      have hres : getNextTime x entries = u := by
        unfold getNextTime
        rw [hf]
      obtain ⟨huS, hxu, humin⟩ := find?_gt_props (sorted_timestampsOf entries) hf
      rcases humin t2 ht2 hlt with hequ | hlt2
      · refine ⟨1, ?_⟩
        rw [Function.iterate_one]
        rw [hres]
        exact hequ
      · have hdec : ((timestampsOf entries).filter (fun v => strLt u v)).length <
            ((timestampsOf entries).filter (fun v => strLt x v)).length :=
          filter_length_lt_of (timestampsOf entries)
            (fun v hv hpv => strLt_trans hxu hpv) u huS hxu (strLt_irrefl u)
        obtain ⟨k, hk⟩ := ih u t2 (by omega) ht2 hlt2
        refine ⟨k + 1, ?_⟩
        rw [Function.iterate_succ_apply]
        rw [hres]
        exact hk

/-- **C7.** For any two distinct timestamps t1 < t2 present among the
records, iterating `getNextTime` from t1 reaches t2 in finitely many steps;
and `getPreviousTime` exactly reverses one step: for every present timestamp
whose successor is not the sentinel, `getPreviousTime` of that successor is
the timestamp itself. -/
theorem navigation_monotonicity (entries : List OrderBookEntry) (t1 t2 : String)
    (h1 : ∃ e ∈ entries, e.timestamp = t1) (h2 : ∃ e ∈ entries, e.timestamp = t2)
    (hlt : strLt t1 t2 = true) :
    (∃ n, (fun s => getNextTime s entries)^[n] t1 = t2) ∧
    ∀ t, (∃ e ∈ entries, e.timestamp = t) → getNextTime t entries ≠ "" →
      getPreviousTime (getNextTime t entries) entries = t := by
  constructor
  · exact next_reaches_aux entries
      ((timestampsOf entries).filter (fun u => strLt t1 u)).length t1 t2
      (le_refl _) ((mem_timestampsOf entries t2).mpr h2) hlt
  · intro t ht hne
    cases hf : (timestampsOf entries).find? (fun u => strLt t u) with
    | none =>
      have : getNextTime t entries = "" := by
        unfold getNextTime
        rw [hf]
      exact absurd this hne
    | some s =>
      have hres : getNextTime t entries = s := by
        unfold getNextTime
        rw [hf]
      obtain ⟨hsS, hts, hsmin⟩ := find?_gt_props (sorted_timestampsOf entries) hf
      rw [hres]
      have htS : t ∈ timestampsOf entries := (mem_timestampsOf entries t).mpr ht
      have hTW := mem_takeWhile_lt (sorted_timestampsOf entries) htS hts
      have hsortedTW : SortedStr ((timestampsOf entries).takeWhile (fun u => strLt u s)) :=
        List.Pairwise.sublist (List.takeWhile_sublist _) (sorted_timestampsOf entries)
      obtain ⟨a, ha⟩ := getLast?_isSome_of_mem hTW
      have hresP : getPreviousTime s entries = a := by
        unfold getPreviousTime
        rw [ha]
      obtain ⟨hpa, haS⟩ := mem_takeWhile_props (List.mem_of_getLast?_eq_some ha)
      have hat : a = t := by
        rcases strLt_trichotomy a t with h3 | h3 | h3
        · rcases sorted_getLast?_max hsortedTW ha t hTW with h4 | h4
          · exact h4.symm
          · exfalso
            have hcontr := strLt_trans h3 h4
            rw [strLt_irrefl] at hcontr
            exact Bool.noConfusion hcontr
        · exact h3
        · exfalso
          rcases hsmin a haS h3 with h4 | h4
          · rw [← h4] at hpa
            rw [strLt_irrefl] at hpa
            exact Bool.noConfusion hpa
          · have := strLt_asymm h4
            rw [hpa] at this
            exact Bool.noConfusion this
      rw [hresP, hat]

/-- Witness for C7: walking from the earlier demo timestamp reaches the later
one, and the walk reverses. -/
theorem navigation_monotonicity_witness :
    (∃ e ∈ [demoBid, demoAsk], e.timestamp = "2020/01/01 00:00:00") ∧
    (∃ e ∈ [demoBid, demoAsk], e.timestamp = "2020/01/01 00:00:05") ∧
    strLt "2020/01/01 00:00:00" "2020/01/01 00:00:05" = true ∧
    ∃ n, (fun s => getNextTime s [demoBid, demoAsk])^[n] "2020/01/01 00:00:00" =
      "2020/01/01 00:00:05" := by
  refine ⟨by decide, by decide, by decide, ?_⟩
  exact (navigation_monotonicity [demoBid, demoAsk]
    "2020/01/01 00:00:00" "2020/01/01 00:00:05"
    (by decide) (by decide) (by decide)).1

end Merkel
